import Mathlib

/-!
Verification of the `queue` Rust repository: a fixed-capacity ring buffer
(`BoundQueue`, src/bound.rs) and an unbounded singly-linked queue
(`UnboundQueue`, src/unbound.rs), both implementing the `Queue` trait
(push / pop / is_empty, src/lib.rs).

Modelling choices (shallow embedding):
* `usize` indices become `Nat`; the raw storage block of `BoundQueue`
  becomes a fixed-length `List (Option α)` where `none` stands for an
  uninitialized slot (`RawVec::new` + `reserve(0, size+1)` allocates
  exactly `size + 1` slots, all uninitialized).  `ptr::write` is
  `List.set` with `some`, `ptr::read` reads the slot (it does not erase
  it, matching the physical memory).
* The heap of `UnboundQueue` becomes an arena `List (Node α)`;
  `Box::into_raw_non_null` allocates at index `arena.length`,
  `NonNull<Node<T>>` becomes the index, `Option<NonNull<..>>` becomes
  `Option Nat`.  Freed nodes simply stay in the arena as garbage; which
  nodes are freed is tracked explicitly where a claim needs it.
* Fallible pointer dereferences (undefined behaviour in Rust) are given a
  harmless total default; the reachability invariants prove those
  branches are never taken.
-/

/-! ## BoundQueue (src/bound.rs) -/

structure BoundQueue (α : Type) where
  data : List (Option α)
  head : Nat
  tail : Nat
  deriving Repr, DecidableEq

namespace BoundQueue

/-- Model of `BoundQueue::new(size)`: `RawVec::new()` followed by
`reserve(0, size + 1)` yields exactly `size + 1` uninitialized slots;
`head = tail = 0`. -/
def new (α : Type) (size : Nat) : BoundQueue α :=
  ⟨List.replicate (size + 1) none, 0, 0⟩

/-- Model of `BoundQueue::cap`: `self.data.cap()`. -/
def cap (q : BoundQueue α) : Nat :=
  q.data.length

/-- Model of `BoundQueue::is_full`: `self.tail + 1 == self.head`
(raw, non-modular comparison, exactly as in the source). -/
def is_full (q : BoundQueue α) : Bool :=
  q.tail + 1 == q.head

/-- Model of `BoundQueue::push` (src/bound.rs lines 34-47). -/
def push (q : BoundQueue α) (item : α) : BoundQueue α :=
  let next := if q.tail + 1 ≥ q.cap then 0 else q.tail + 1
  if next = q.head then q
  else { q with data := q.data.set q.tail (some item), tail := next }

/-- Model of `BoundQueue::pop` (src/bound.rs lines 49-61): returns the
popped value together with the new state. -/
def pop (q : BoundQueue α) : Option α × BoundQueue α :=
  if q.head = q.tail then (none, q)
  else
    let next := if q.head + 1 ≥ q.cap then 0 else q.head + 1
    (q.data[q.head]?.join, { q with head := next })

/-- Model of `BoundQueue::is_empty`: `self.head == self.tail`. -/
def is_empty (q : BoundQueue α) : Bool :=
  q.head == q.tail

end BoundQueue

namespace BoundQueue

/-- Occupancy of the ring buffer: `(tail - head) mod cap`, written with a
`+ cap` so Nat subtraction cannot underflow. -/
def size (q : BoundQueue α) : Nat :=
  (q.tail + q.cap - q.head) % q.cap

/-- Resident elements of the buffer, oldest first: the contents of the
slots `(head + i) % cap` for `i < size`. -/
def toList (q : BoundQueue α) : List (Option α) :=
  (List.range q.size).map (fun i => q.data[(q.head + i) % q.cap]?.join)

/-- Fold of `push` over a list of items, first item pushed first. -/
def pushAll (q : BoundQueue α) (vs : List α) : BoundQueue α :=
  vs.foldl BoundQueue.push q

/-- Pop `n` times, collecting the returned options in order.  This is also
the model of `IntoIter` (src/bound.rs lines 120-125), whose `next` is
exactly `self.0.pop()`. -/
def pops : BoundQueue α → Nat → List (Option α) × BoundQueue α
  | q, 0 => ([], q)
  | q, n + 1 =>
    let r := q.pop
    let rs := pops r.2 n
    (r.1 :: rs.1, rs.2)

end BoundQueue

/-- States of the borrowing iterator `Iter` of src/bound.rs: a position, the
`tail` bound and the borrowed slice (whole raw buffer). -/
structure BIter (α : Type) where
  pos : Nat
  tail : Nat
  data : List (Option α)
  deriving Repr, DecidableEq

namespace BIter

/-- Model of `Iter::next` (src/bound.rs lines 137-151): `none` in the first
component means the iterator is exhausted; otherwise the yielded slot
content is returned (always initialized in reachable states). -/
def next (it : BIter α) : Option (Option α) × BIter α :=
  let c := it.pos
  if c = it.tail then (none, it)
  else
    let it' := if c = it.data.length - 1 then { it with pos := 0 }
               else { it with pos := c + 1 }
    (some it.data[c]?.join, it')

end BIter

namespace BoundQueue

/-- Model of `BoundQueue::iter` (and of `iter_mut`, whose traversal is
identical): starts at `head`, stops at `tail`, borrows the buffer. -/
def iter (q : BoundQueue α) : BIter α :=
  ⟨q.head, q.tail, q.data⟩

end BoundQueue

/-- Run a `BIter` for at most `fuel` steps, recording for every yielded
element the slot index that was dereferenced (`c` in the source) together
with the value read. -/
def runBIter : BIter α → Nat → List (Nat × Option α)
  | _, 0 => []
  | it, fuel + 1 =>
    match it.next with
    | (none, _) => []
    | (some v, it') => (it.pos, v) :: runBIter it' fuel

/-- Slots destructed by `Drop for BoundQueue` (src/bound.rs lines 127-135):
the drop loop walks `iter_mut` to exhaustion and runs the destructor on
each yielded slot.  `cap` steps of fuel are enough for every reachable
state (proved below). -/
def BoundQueue.dropDestructs (q : BoundQueue α) : List (Nat × Option α) :=
  runBIter q.iter q.cap

/-- States reachable from some `BoundQueue::new(n)` by pushes and pops. -/
inductive BReachable {α : Type} : BoundQueue α → Prop where
  | new (n : Nat) : BReachable (BoundQueue.new α n)
  | push {q : BoundQueue α} (v : α) : BReachable q → BReachable (q.push v)
  | pop {q : BoundQueue α} : BReachable q → BReachable q.pop.2

/-! ## The Queue trait as an operation language

`Op` is one call through the `Queue` capability contract (src/lib.rs);
`Obs` is the caller-visible result of such a call (`push` returns unit and
is therefore unobservable beyond its effect). -/

inductive Op (α : Type) where
  | push : α → Op α
  | pop : Op α
  | isEmpty : Op α
  deriving Repr, DecidableEq

inductive Obs (α : Type) where
  | popped : Option α → Obs α
  | empty : Bool → Obs α
  deriving Repr, DecidableEq

/-- Run a sequence of trait calls on a `BoundQueue`, collecting the
observations. -/
def runB : BoundQueue α → List (Op α) → List (Obs α) × BoundQueue α
  | q, [] => ([], q)
  | q, Op.push v :: ops => runB (q.push v) ops
  | q, Op.pop :: ops =>
    let r := q.pop
    let rs := runB r.2 ops
    (Obs.popped r.1 :: rs.1, rs.2)
  | q, Op.isEmpty :: ops =>
    let rs := runB q ops
    (Obs.empty q.is_empty :: rs.1, rs.2)

/-- Reference model: a FIFO queue as a plain list (front = oldest). -/
def runL : List α → List (Op α) → List (Obs α) × List α
  | l, [] => ([], l)
  | l, Op.push v :: ops => runL (l ++ [v]) ops
  | l, Op.pop :: ops =>
    match l with
    | [] =>
      let rs := runL ([] : List α) ops
      (Obs.popped none :: rs.1, rs.2)
    | x :: xs =>
      let rs := runL xs ops
      (Obs.popped (some x) :: rs.1, rs.2)
  | l, Op.isEmpty :: ops =>
    let rs := runL l ops
    (Obs.empty l.isEmpty :: rs.1, rs.2)

/-- Decidable check that, along a run of `ops` from abstract state `l`, the
number of resident elements never exceeds `n` (checked exactly before each
push, the only operation that grows the queue). -/
def residentOk : List α → List (Op α) → Nat → Bool
  | _, [], _ => true
  | l, Op.push v :: ops, n => decide (l.length + 1 ≤ n) && residentOk (l ++ [v]) ops n
  | l, Op.pop :: ops, n => residentOk l.tail ops n
  | l, Op.isEmpty :: ops, n => residentOk l ops n

/-! ## UnboundQueue (src/unbound.rs) -/

/-- Model of `Node<T>`: payload plus forward pointer, the pointer being an
index into the allocation arena. -/
structure Node (α : Type) where
  next : Option Nat
  data : α
  deriving Repr, DecidableEq

/-- Model of `UnboundQueue<T>`.  `arena` is the heap: `Box::new` allocates
at index `arena.length`; a freed node stays in the arena as inaccessible
garbage (which nodes get freed is tracked separately where it matters). -/
structure UnboundQueue (α : Type) where
  arena : List (Node α)
  head : Option Nat
  tail : Option Nat
  len : Nat
  deriving Repr, DecidableEq

namespace UnboundQueue

/-- Model of `UnboundQueue::new` (src/unbound.rs lines 26-35). -/
def new (α : Type) : UnboundQueue α :=
  ⟨[], none, none, 0⟩

/-- Write `some idx` into the `next` field of node `t` (the
`tail.as_mut().next = node` assignment).  Out-of-arena writes cannot occur
in reachable states; they are modelled as a no-op. -/
def setNext (arena : List (Node α)) (t idx : Nat) : List (Node α) :=
  match arena[t]? with
  | some nd => arena.set t ⟨some idx, nd.data⟩
  | none => arena

/-- Model of `Queue::push` for `UnboundQueue` = `Box::new` +
`push_node` (src/unbound.rs lines 38-41 and 57-67). -/
def push (q : UnboundQueue α) (item : α) : UnboundQueue α :=
  let idx := q.arena.length
  let arena1 := q.arena ++ [⟨none, item⟩]
  match q.tail with
  | none =>
    { arena := arena1, head := some idx, tail := some idx, len := q.len + 1 }
  | some t =>
    { arena := setNext arena1 t idx, head := q.head, tail := some idx, len := q.len + 1 }

/-- Model of `Queue::pop` for `UnboundQueue` = `pop_node().map(|n| n.data)`
(src/unbound.rs lines 43-45 and 69-79).  Also returns the freed node's
index so that destruction can be audited; a dereference of a dangling
head (impossible in reachable states) is modelled as returning `none`. -/
def popF (q : UnboundQueue α) : Option (Nat × α) × UnboundQueue α :=
  match q.head with
  | none => (none, q)
  | some h =>
    match q.arena[h]? with
    | none => (none, q)
    | some nd =>
      (some (h, nd.data),
       { arena := q.arena, head := nd.next,
         tail := if nd.next = none then none else q.tail, len := q.len - 1 })

/-- The caller-visible `pop`. -/
def pop (q : UnboundQueue α) : Option α × UnboundQueue α :=
  let r := q.popF
  (r.1.map Prod.snd, r.2)

/-- Model of `Queue::is_empty` for `UnboundQueue`: `self.head.is_none()`. -/
def is_empty (q : UnboundQueue α) : Bool :=
  q.head.isNone

/-- Fold of `push` over a list of items. -/
def pushAll (q : UnboundQueue α) (vs : List α) : UnboundQueue α :=
  vs.foldl UnboundQueue.push q

/-- Pop `n` times, collecting results; the model of `IntoIter`
(src/unbound.rs lines 110-115), whose `next` is `self.0.pop()`. -/
def pops : UnboundQueue α → Nat → List (Option α) × UnboundQueue α
  | q, 0 => ([], q)
  | q, n + 1 =>
    let r := q.pop
    let rs := pops r.2 n
    (r.1 :: rs.1, rs.2)

/-- Model of `Drop for UnboundQueue` (src/unbound.rs lines 94-98):
`while let Some(_) = self.pop_node() {}`, with the freed node index and
destructed payload of every iteration recorded.  `fuel` bounds the loop;
`len` steps suffice in reachable states (proved below). -/
def drain : UnboundQueue α → Nat → List (Nat × α) × UnboundQueue α
  | q, 0 => ([], q)
  | q, fuel + 1 =>
    match q.popF with
    | (none, _) => ([], q)
    | (some iv, q') =>
      let rs := drain q' fuel
      (iv :: rs.1, rs.2)

end UnboundQueue

/-- States of the borrowing iterator `Iter` of src/unbound.rs: the current
node pointer (`pos`) plus the borrowed heap. -/
structure UIter (α : Type) where
  pos : Option Nat
  arena : List (Node α)
  deriving Repr, DecidableEq

namespace UIter

/-- Model of `Iter::next` (src/unbound.rs lines 117-125). -/
def next (it : UIter α) : Option α × UIter α :=
  match it.pos with
  | none => (none, it)
  | some i =>
    match it.arena[i]? with
    | none => (none, it)
    | some nd => (some nd.data, { it with pos := nd.next })

end UIter

/-- Model of `UnboundQueue::iter` (and `iter_mut`, identical traversal):
starts at `head`. -/
def UnboundQueue.iter (q : UnboundQueue α) : UIter α :=
  ⟨q.head, q.arena⟩

/-- Run a `UIter` for at most `fuel` steps, recording the visited node
index and the value read at each step. -/
def runUIter : UIter α → Nat → List (Nat × α)
  | _, 0 => []
  | it, fuel + 1 =>
    match it.pos, it.next with
    | some i, (some v, it') => (i, v) :: runUIter it' fuel
    | _, _ => []

/-- Chain structure: `isChain arena o is` says that starting from pointer
`o` and repeatedly following `next` visits exactly the nodes `is` and then
reaches a null pointer. -/
def isChain (arena : List (Node α)) : Option Nat → List Nat → Prop
  | none, [] => True
  | none, _ :: _ => False
  | some _, [] => False
  | some i, j :: rest =>
    i = j ∧ match arena[i]? with
      | none => False
      | some nd => isChain arena nd.next rest

/-- Values stored at a list of node indices. -/
def chainVals (arena : List (Node α)) (is : List Nat) : List α :=
  is.filterMap (fun i => (arena[i]?).map Node.data)

/-- Resident elements of an `UnboundQueue`, oldest first, read off by
walking the chain for `len` steps. -/
def UnboundQueue.toList (q : UnboundQueue α) : List α :=
  (runUIter q.iter q.len).map Prod.snd

/-- Abstraction invariant for `UnboundQueue` with the chain exposed: the
duplicate-free index list `is` forms the chain from `head`, `tail` is its
last element, `len` its length, and `l` the stored values in chain
order. -/
def UInvC (q : UnboundQueue α) (is : List Nat) (l : List α) : Prop :=
  isChain q.arena q.head is ∧
  is.Nodup ∧
  q.len = is.length ∧
  q.tail = is.getLast? ∧
  l = chainVals q.arena is

/-- Abstraction invariant for `UnboundQueue`: some chain realizes `l`. -/
def UInv (q : UnboundQueue α) (l : List α) : Prop :=
  ∃ is : List Nat, UInvC q is l

/-- States reachable from `UnboundQueue::new()` by pushes and pops. -/
inductive UReachable {α : Type} : UnboundQueue α → Prop where
  | new : UReachable (UnboundQueue.new α)
  | push {q : UnboundQueue α} (v : α) : UReachable q → UReachable (q.push v)
  | pop {q : UnboundQueue α} : UReachable q → UReachable q.pop.2

/-- Run a sequence of trait calls on an `UnboundQueue`, collecting the
observations. -/
def runU : UnboundQueue α → List (Op α) → List (Obs α) × UnboundQueue α
  | q, [] => ([], q)
  | q, Op.push v :: ops => runU (q.push v) ops
  | q, Op.pop :: ops =>
    let r := q.pop
    let rs := runU r.2 ops
    (Obs.popped r.1 :: rs.1, rs.2)
  | q, Op.isEmpty :: ops =>
    let rs := runU q ops
    (Obs.empty q.is_empty :: rs.1, rs.2)

/-! ### Abstraction invariant for BoundQueue

`BInv q l` says the circular buffer `q` represents the FIFO list `l`
(oldest first): the occupied slots are `(head + i) % cap` for
`i < l.length`, and `tail` sits one past the last occupied slot. -/

structure BInv (q : BoundQueue α) (l : List α) : Prop where
  head_lt : q.head < q.cap
  len_lt : l.length < q.cap
  tail_eq : q.tail = (q.head + l.length) % q.cap
  elems : ∀ i, (hi : i < l.length) →
    q.data[(q.head + i) % q.cap]? = some (some l[i])

theorem BInv.cap_pos (h : BInv q l) : 0 < q.cap :=
  Nat.lt_of_le_of_lt (Nat.zero_le _) h.head_lt

theorem BInv.tail_lt (h : BInv q l) : q.tail < q.cap := by
  rw [h.tail_eq]; exact Nat.mod_lt _ h.cap_pos

theorem binv_new (α : Type) (n : Nat) : BInv (BoundQueue.new α n) [] := by
  refine ⟨?_, ?_, ?_, ?_⟩
  · simp [BoundQueue.new, BoundQueue.cap]
  · simp [BoundQueue.new, BoundQueue.cap]
  · simp [BoundQueue.new]
  · intro i hi; simp at hi


/-! ### Modular arithmetic helpers -/

theorem mod_shift_cancel {c h i j : Nat} (hh : (h + i) % c = (h + j) % c) :
    i % c = j % c := by
  have h1 : h + i ≡ h + j [MOD c] := hh
  exact Nat.ModEq.add_left_cancel' h h1

theorem mod_shift_inj {c h i j : Nat} (hi : i < c) (hj : j < c)
    (hh : (h + i) % c = (h + j) % c) : i = j := by
  have := mod_shift_cancel hh
  rwa [Nat.mod_eq_of_lt hi, Nat.mod_eq_of_lt hj] at this

theorem full_iff {c h len : Nat} (hh : h < c) (hl : len < c) :
    (h + len + 1) % c = h ↔ len + 1 = c := by
  constructor
  · intro he
    have h0 : (h + (len + 1)) % c = (h + 0) % c := by
      rw [← Nat.add_assoc, he, Nat.add_zero, Nat.mod_eq_of_lt hh]
    have := mod_shift_cancel h0
    rw [Nat.zero_mod] at this
    have hdvd : c ∣ len + 1 := Nat.dvd_of_mod_eq_zero this
    have hle : len + 1 ≤ c := hl
    exact Nat.le_antisymm hle (Nat.le_of_dvd (Nat.succ_pos _) hdvd)
  · intro he
    rw [Nat.add_assoc, he, Nat.add_mod_right, Nat.mod_eq_of_lt hh]

theorem next_mod {t c : Nat} (ht : t < c) :
    (if t + 1 ≥ c then 0 else t + 1) = (t + 1) % c := by
  rcases Nat.lt_or_ge (t + 1) c with hlt | hge
  · rw [if_neg (Nat.not_le_of_lt hlt), Nat.mod_eq_of_lt hlt]
  · have : t + 1 = c := Nat.le_antisymm ht hge
    rw [if_pos hge, this, Nat.mod_self]

/-! ### BoundQueue simulation lemmas -/

theorem binv_push_ok {α : Type} {q : BoundQueue α} {l : List α}
    (h : BInv q l) (hlen : l.length + 1 < q.cap) (v : α) :
    BInv (q.push v) (l ++ [v]) := by
  have htl := h.tail_lt
  have hnext : (if q.tail + 1 ≥ q.cap then 0 else q.tail + 1)
      = (q.head + l.length + 1) % q.cap := by
    rw [next_mod htl, h.tail_eq, Nat.mod_add_mod]
  have hne : (q.head + l.length + 1) % q.cap ≠ q.head := by
    intro he
    exact Nat.ne_of_lt hlen ((full_iff h.head_lt h.len_lt).1 he)
  have hpush : q.push v = { q with data := q.data.set q.tail (some v), tail := (q.head + l.length + 1) % q.cap } := by
    rw [BoundQueue.push]
    simp only [hnext, if_neg hne]
  rw [hpush]
  refine ⟨?_, ?_, ?_, ?_⟩
  · simpa [BoundQueue.cap] using h.head_lt
  · simpa [BoundQueue.cap] using hlen
  · simp [BoundQueue.cap, Nat.add_assoc]
  · intro i hi
    simp only [List.length_append, List.length_singleton] at hi
    show (q.data.set q.tail (some v))[(q.head + i) % (q.data.set q.tail (some v)).length]?
        = some (some (l ++ [v])[i])
    rw [List.length_set]
    rcases Nat.lt_or_ge i l.length with hilt | hige
    · have hne2 : q.tail ≠ (q.head + i) % q.cap := by
        rw [h.tail_eq]
        intro he
        exact Nat.ne_of_lt hilt (mod_shift_inj (Nat.lt_trans hilt h.len_lt) h.len_lt he.symm)
      have hcap : q.cap = q.data.length := rfl
      rw [← hcap, List.getElem?_set_ne hne2, h.elems i hilt]
      congr 2
      exact (List.getElem_append_left hilt).symm
    · have hieq : i = l.length := Nat.le_antisymm (Nat.lt_succ_iff.1 hi) hige
      subst hieq
      have hT : (q.head + l.length) % q.cap = q.tail := h.tail_eq.symm
      have hcap : q.cap = q.data.length := rfl
      rw [← hcap, hT, List.getElem?_set_self (hcap ▸ h.tail_lt)]
      congr 2
      exact (List.getElem_concat_length l v l.length rfl _).symm

theorem binv_push_full {α : Type} {q : BoundQueue α} {l : List α}
    (h : BInv q l) (hlen : l.length + 1 = q.cap) (v : α) :
    q.push v = q := by
  have htl := h.tail_lt
  have hnext : (if q.tail + 1 ≥ q.cap then 0 else q.tail + 1)
      = (q.head + l.length + 1) % q.cap := by
    rw [next_mod htl, h.tail_eq, Nat.mod_add_mod]
  have heq : (q.head + l.length + 1) % q.cap = q.head :=
    (full_iff h.head_lt h.len_lt).2 hlen
  rw [BoundQueue.push]
  simp only [hnext, if_pos heq]

theorem binv_empty_iff {α : Type} {q : BoundQueue α} {l : List α}
    (h : BInv q l) : q.head = q.tail ↔ l = [] := by
  constructor
  · intro he
    rcases List.eq_nil_or_concat l with hnil | ⟨l', v, hcons⟩
    · exact hnil
    · exfalso
      have hlen : 0 < l.length := by
        subst hcons; simp
      have h0 : (q.head + l.length) % q.cap = (q.head + 0) % q.cap := by
        rw [← h.tail_eq, Nat.add_zero, Nat.mod_eq_of_lt h.head_lt, he]
      have := mod_shift_inj h.len_lt h.cap_pos h0
      omega
  · intro he
    subst he
    rw [h.tail_eq]
    simp [Nat.mod_eq_of_lt h.head_lt]

theorem binv_is_empty {α : Type} {q : BoundQueue α} {l : List α}
    (h : BInv q l) : q.is_empty = l.isEmpty := by
  rw [BoundQueue.is_empty]
  rcases Decidable.em (q.head = q.tail) with he | he
  · rw [(binv_empty_iff h).1 he]
    simp [he]
  · have : l ≠ [] := fun hnil => he ((binv_empty_iff h).2 hnil)
    cases l with
    | nil => exact absurd rfl this
    | cons x xs => simp [beq_eq_false_iff_ne.2 he]

theorem binv_pop_nil {α : Type} {q : BoundQueue α}
    (h : BInv q []) : q.pop = (none, q) := by
  rw [BoundQueue.pop, if_pos ((binv_empty_iff h).2 rfl)]

theorem binv_pop_cons {α : Type} {q : BoundQueue α} {x : α} {xs : List α}
    (h : BInv q (x :: xs)) :
    q.pop = (some x, { q with head := (q.head + 1) % q.cap }) ∧
      BInv { q with head := (q.head + 1) % q.cap } xs := by
  have hne : q.head ≠ q.tail := fun he => by
    have := (binv_empty_iff h).1 he
    exact List.cons_ne_nil x xs this
  have hread : q.data[q.head]? = some (some x) := by
    have h0 := h.elems 0 (Nat.succ_pos _)
    rwa [Nat.add_zero, Nat.mod_eq_of_lt h.head_lt] at h0
  have hpop : q.pop = (some x, { q with head := (q.head + 1) % q.cap }) := by
    rw [BoundQueue.pop, if_neg hne]
    simp [next_mod h.head_lt, hread, Option.join]
  refine ⟨hpop, ?_, ?_, ?_, ?_⟩
  · show (q.head + 1) % q.cap < q.cap
    exact Nat.mod_lt _ h.cap_pos
  · show xs.length < q.cap
    have := h.len_lt
    simp only [List.length_cons] at this
    omega
  · show q.tail = ((q.head + 1) % q.cap + xs.length) % q.cap
    rw [h.tail_eq, Nat.mod_add_mod]
    congr 1
    simp [List.length_cons]
    omega
  · intro i hi
    show q.data[((q.head + 1) % q.cap + i) % q.cap]? = some (some xs[i])
    have hstep : ((q.head + 1) % q.cap + i) % q.cap = (q.head + (i + 1)) % q.cap := by
      rw [Nat.mod_add_mod]
      congr 1
      omega
    rw [hstep]
    have := h.elems (i + 1) (by simpa using hi)
    rw [this]
    simp

theorem BoundQueue.push_cap (q : BoundQueue α) (v : α) : (q.push v).cap = q.cap := by
  simp only [BoundQueue.push]
  split <;> split <;> simp [BoundQueue.cap]

theorem breachable_binv {α : Type} {q : BoundQueue α} (hr : BReachable q) :
    ∃ l, BInv q l := by
  induction hr with
  | new n => exact ⟨[], binv_new α n⟩
  | push v _ ih =>
    obtain ⟨l, h⟩ := ih
    rcases Nat.lt_or_ge (l.length + 1) _ with hlt | hge
    · exact ⟨l ++ [v], binv_push_ok h hlt v⟩
    · have : l.length + 1 = _ := Nat.le_antisymm h.len_lt hge
      rw [binv_push_full h this v]
      exact ⟨l, h⟩
  | pop _ ih =>
    obtain ⟨l, h⟩ := ih
    cases l with
    | nil => rw [binv_pop_nil h]; exact ⟨[], h⟩
    | cons x xs =>
      obtain ⟨hpop, hinv⟩ := binv_pop_cons h
      rw [hpop]
      exact ⟨xs, hinv⟩

theorem binv_size {α : Type} {q : BoundQueue α} {l : List α}
    (h : BInv q l) : q.size = l.length := by
  rw [BoundQueue.size, h.tail_eq]
  have hle : q.head ≤ q.cap := Nat.le_of_lt h.head_lt
  have h1 : (q.head + l.length) % q.cap + q.cap - q.head
      = (q.head + l.length) % q.cap + (q.cap - q.head) := by omega
  rw [h1, Nat.mod_add_mod]
  have h2 : q.head + l.length + (q.cap - q.head) = l.length + q.cap := by omega
  rw [h2, Nat.add_mod_right, Nat.mod_eq_of_lt h.len_lt]

theorem binv_toList {α : Type} {q : BoundQueue α} {l : List α}
    (h : BInv q l) : q.toList = l.map some := by
  rw [BoundQueue.toList, binv_size h]
  apply List.ext_getElem
  · simp
  · intro i h1 h2
    simp only [List.getElem_map, List.getElem_range, List.length_map, List.length_range] at h1 h2 ⊢
    rw [h.elems i h1]
    simp

theorem binv_pushAll {α : Type} {q : BoundQueue α} {l : List α} (vs : List α)
    (h : BInv q l) (hlen : l.length + vs.length < q.cap) :
    BInv (q.pushAll vs) (l ++ vs) := by
  induction vs generalizing q l with
  | nil => simpa [BoundQueue.pushAll] using h
  | cons v vs ih =>
    have hstep : l.length + 1 < q.cap := by
      simp only [List.length_cons] at hlen
      omega
    have h2 := binv_push_ok h hstep v
    have hcap : (q.push v).cap = q.cap := BoundQueue.push_cap q v
    have h3 : (l ++ [v]).length + vs.length < (q.push v).cap := by
      simp only [List.length_append, List.length_singleton, hcap]
      simp only [List.length_cons] at hlen
      omega
    have h4 := ih h2 h3
    simpa [BoundQueue.pushAll, List.append_assoc] using h4

theorem binv_pops {α : Type} {q : BoundQueue α} {l : List α}
    (h : BInv q l) :
    (q.pops l.length).1 = l.map some ∧ BInv (q.pops l.length).2 [] := by
  induction l generalizing q with
  | nil => exact ⟨rfl, h⟩
  | cons x xs ih =>
    obtain ⟨hpop, hinv⟩ := binv_pop_cons h
    have := ih hinv
    rw [List.length_cons, BoundQueue.pops]
    simp only [hpop]
    exact ⟨by rw [List.map_cons]; exact congrArg _ this.1, this.2⟩

theorem BoundQueue.pops_split (q : BoundQueue α) (m n : Nat) :
    q.pops (m + n) =
      ((q.pops m).1 ++ ((q.pops m).2.pops n).1, ((q.pops m).2.pops n).2) := by
  induction m generalizing q with
  | zero => simp [BoundQueue.pops]
  | succ k ih =>
    have harith : k + 1 + n = (k + n) + 1 := by omega
    rw [harith, BoundQueue.pops, BoundQueue.pops, ih]
    simp

theorem binv_pops_succ {α : Type} {q : BoundQueue α} {l : List α}
    (h : BInv q l) :
    (q.pops (l.length + 1)).1 = l.map some ++ [none] := by
  obtain ⟨h1, h2⟩ := binv_pops h
  rw [BoundQueue.pops_split q l.length 1]
  have h3 : ((q.pops l.length).2.pops 1).1 = [none] := by
    rw [BoundQueue.pops, BoundQueue.pops]
    simp [binv_pop_nil h2]
  simp [h1, h3]

/-! ### Chain lemmas for UnboundQueue -/

theorem isChain_none_cons {α : Type} {arena : List (Node α)} {j : Nat} {is : List Nat} :
    ¬ isChain arena none (j :: is) := fun h => h

theorem isChain_some_nil {α : Type} {arena : List (Node α)} {i : Nat} :
    ¬ isChain arena (some i) [] := fun h => h

theorem isChain_some_cons {α : Type} {arena : List (Node α)} {i j : Nat} {is : List Nat} :
    isChain arena (some i) (j :: is) ↔
      i = j ∧ ∃ nd, arena[i]? = some nd ∧ isChain arena nd.next is := by
  show (i = j ∧ match arena[i]? with
      | none => False
      | some nd => isChain arena nd.next is) ↔ _
  cases harena : arena[i]? with
  | none => simp
  | some nd => simp

theorem isChain_nil_iff {α : Type} {arena : List (Node α)} {o : Option Nat} :
    isChain arena o [] ↔ o = none := by
  cases o with
  | none => simp [isChain]
  | some i => simpa using @isChain_some_nil _ arena i

theorem isChain_lt {α : Type} {arena : List (Node α)} :
    ∀ {o : Option Nat} {is : List Nat}, isChain arena o is →
      ∀ j ∈ is, j < arena.length := by
  intro o is
  induction is generalizing o with
  | nil => intro _ j hj; simp at hj
  | cons k rest ih =>
    intro hc j hj
    cases o with
    | none => exact absurd hc isChain_none_cons
    | some i =>
      obtain ⟨hij, nd, hnd, hrest⟩ := isChain_some_cons.1 hc
      rcases List.mem_cons.1 hj with hjk | hjr
      · subst hjk; subst hij
        exact (List.getElem?_eq_some_iff.1 hnd).1
      · exact ih hrest j hjr

theorem isChain_append {α : Type} {arena ext : List (Node α)} :
    ∀ {o : Option Nat} {is : List Nat}, isChain arena o is →
      isChain (arena ++ ext) o is := by
  intro o is
  induction is generalizing o with
  | nil =>
    intro hc
    rw [isChain_nil_iff] at hc ⊢
    exact hc
  | cons k rest ih =>
    intro hc
    cases o with
    | none => exact absurd hc isChain_none_cons
    | some i =>
      obtain ⟨hij, nd, hnd, hrest⟩ := isChain_some_cons.1 hc
      refine isChain_some_cons.2 ⟨hij, nd, ?_, ih hrest⟩
      rw [List.getElem?_append_left (List.getElem?_eq_some_iff.1 hnd).1]
      exact hnd

theorem setNext_getElem?_ne {α : Type} {arena : List (Node α)} {t idx j : Nat}
    (hj : j ≠ t) : (UnboundQueue.setNext arena t idx)[j]? = arena[j]? := by
  rw [UnboundQueue.setNext]
  cases harena : arena[t]? with
  | none => rfl
  | some nd => exact List.getElem?_set_ne (fun he => hj he.symm)

theorem setNext_getElem?_self {α : Type} {arena : List (Node α)} {t idx : Nat}
    {nd : Node α} (h : arena[t]? = some nd) :
    (UnboundQueue.setNext arena t idx)[t]? = some ⟨some idx, nd.data⟩ := by
  rw [UnboundQueue.setNext, h]
  exact List.getElem?_set_self (List.getElem?_eq_some_iff.1 h).1

theorem setNext_data {α : Type} (arena : List (Node α)) (t idx j : Nat) :
    ((UnboundQueue.setNext arena t idx)[j]?).map Node.data = (arena[j]?).map Node.data := by
  rcases Decidable.em (j = t) with hjt | hjt
  · subst hjt
    cases harena : arena[j]? with
    | none => simp [UnboundQueue.setNext, harena]
    | some nd =>
      rw [setNext_getElem?_self harena]
      simp
  · rw [setNext_getElem?_ne hjt]

theorem chainVals_setNext {α : Type} (arena : List (Node α)) (t idx : Nat)
    (is : List Nat) :
    chainVals (UnboundQueue.setNext arena t idx) is = chainVals arena is := by
  rw [chainVals, chainVals]
  apply List.filterMap_congr
  intro j _
  exact setNext_data arena t idx j

theorem chainVals_append {α : Type} {arena ext : List (Node α)} {is : List Nat}
    (hlt : ∀ j ∈ is, j < arena.length) :
    chainVals (arena ++ ext) is = chainVals arena is := by
  rw [chainVals, chainVals]
  apply List.filterMap_congr
  intro j hj
  rw [List.getElem?_append_left (hlt j hj)]

theorem chainVals_cons {α : Type} {arena : List (Node α)} {j : Nat}
    {is : List Nat} {nd : Node α} (h : arena[j]? = some nd) :
    chainVals arena (j :: is) = nd.data :: chainVals arena is := by
  rw [chainVals, List.filterMap_cons, h]
  rfl

theorem isChain_snoc_of_last {α : Type} {arena : List (Node α)} {t idx : Nat}
    {nd2 : Node α}
    (hnew : (UnboundQueue.setNext arena t idx)[idx]? = some nd2)
    (hnext : nd2.next = none) :
    ∀ {o : Option Nat} {is : List Nat}, isChain arena o is → is.Nodup →
      is.getLast? = some t → (∀ j ∈ is, j ≠ idx) →
      isChain (UnboundQueue.setNext arena t idx) o (is ++ [idx]) := by
  intro o is
  induction is generalizing o with
  | nil => intro _ _ hlast _; simp at hlast
  | cons k rest ih =>
    intro hc hnd hlast hfresh
    cases o with
    | none => exact absurd hc isChain_none_cons
    | some i =>
      obtain ⟨hij, nd, hndk, hrest⟩ := isChain_some_cons.1 hc
      subst hij
      cases rest with
      | nil =>
        have hkt : i = t := by simpa using hlast
        subst hkt
        refine isChain_some_cons.2 ⟨rfl, ⟨some idx, nd.data⟩, setNext_getElem?_self hndk, ?_⟩
        show isChain _ (some idx) [idx]
        refine isChain_some_cons.2 ⟨rfl, nd2, hnew, ?_⟩
        rw [hnext]
        exact trivial
      | cons k2 rest2 =>
        have hlast2 : (k2 :: rest2).getLast? = some t := by
          rwa [List.getLast?_cons_cons] at hlast
        have hmem_t : t ∈ k2 :: rest2 := by
          have := List.mem_getLast?_eq_getLast (Option.mem_def.2 hlast2)
          obtain ⟨hne, heq⟩ := this
          rw [heq]
          exact List.getLast_mem hne
        have hkt : i ≠ t := by
          intro he
          subst he
          exact (List.nodup_cons.1 hnd).1 hmem_t
        refine isChain_some_cons.2 ⟨rfl, nd, ?_, ?_⟩
        · rw [setNext_getElem?_ne hkt]
          exact hndk
        · exact ih hrest (List.nodup_cons.1 hnd).2 hlast2
            (fun j hj => hfresh j (List.mem_cons_of_mem _ hj))

theorem uinvc_new (α : Type) : UInvC (UnboundQueue.new α) [] [] := by
  refine ⟨trivial, List.nodup_nil, rfl, rfl, rfl⟩

theorem uinvc_push {α : Type} {q : UnboundQueue α} {is : List Nat} {l : List α}
    (h : UInvC q is l) (v : α) :
    UInvC (q.push v) (is ++ [q.arena.length]) (l ++ [v]) := by
  obtain ⟨hc, hnd, hlen, htail, hvals⟩ := h
  have hlt : ∀ j ∈ is, j < q.arena.length := isChain_lt hc
  have hfreshmem : q.arena.length ∉ is := fun hmem =>
    Nat.lt_irrefl _ (hlt _ hmem)
  have hnd2 : (is ++ [q.arena.length]).Nodup := by
    rw [List.nodup_append]
    exact ⟨hnd, List.nodup_singleton _, by
      intro a ha hb
      simp at hb
      subst hb
      exact hfreshmem ha⟩
  cases htq : q.tail with
  | none =>
    have hisnil : is = [] := by
      rw [htq] at htail
      exact List.getLast?_eq_none_iff.1 htail.symm
    subst hisnil
    have hhead : q.head = none := isChain_nil_iff.1 hc
    have hlnil : l = [] := hvals
    subst hlnil
    rw [UnboundQueue.push]
    simp only [htq]
    refine ⟨?_, hnd2, ?_, ?_, ?_⟩
    · show isChain (q.arena ++ [⟨none, v⟩]) (some q.arena.length) [q.arena.length]
      refine isChain_some_cons.2 ⟨rfl, ⟨none, v⟩, List.getElem?_concat_length _ _, trivial⟩
    · show q.len + 1 = _
      rw [hlen]
      rfl
    · rfl
    · show [] ++ [v] = chainVals (q.arena ++ [⟨none, v⟩]) [q.arena.length]
      rw [chainVals, List.filterMap_cons, List.getElem?_concat_length]
      rfl
  | some t =>
    have hlast : is.getLast? = some t := by rw [← htail, htq]
    have hfresh : ∀ j ∈ is, j ≠ q.arena.length := fun j hj he =>
      Nat.lt_irrefl _ (he ▸ hlt j hj)
    have htlt : t < q.arena.length := by
      have : t ∈ is := by
        obtain ⟨hne, heq⟩ := List.mem_getLast?_eq_getLast (Option.mem_def.2 hlast)
        rw [heq]
        exact List.getLast_mem hne
      exact hlt t this
    have hnew : (UnboundQueue.setNext (q.arena ++ [⟨none, v⟩]) t q.arena.length)[q.arena.length]?
        = some ⟨none, v⟩ := by
      rw [setNext_getElem?_ne (Nat.ne_of_gt htlt), List.getElem?_concat_length]
    rw [UnboundQueue.push]
    simp only [htq]
    refine ⟨?_, hnd2, ?_, ?_, ?_⟩
    · show isChain (UnboundQueue.setNext (q.arena ++ [⟨none, v⟩]) t q.arena.length)
        q.head (is ++ [q.arena.length])
      exact isChain_snoc_of_last hnew rfl (isChain_append hc) hnd hlast hfresh
    · show q.len + 1 = (is ++ [q.arena.length]).length
      rw [hlen]
      simp
    · show some q.arena.length = (is ++ [q.arena.length]).getLast?
      rw [List.getLast?_concat]
    · show l ++ [v] = chainVals (UnboundQueue.setNext (q.arena ++ [⟨none, v⟩]) t q.arena.length)
        (is ++ [q.arena.length])
      rw [chainVals_setNext, chainVals, List.filterMap_append]
      rw [← chainVals, ← chainVals, chainVals_append hlt, ← hvals]
      congr 1
      rw [chainVals, List.filterMap_cons, List.getElem?_concat_length]
      rfl

theorem uinvc_head_none {α : Type} {q : UnboundQueue α} {l : List α}
    (h : UInvC q [] l) : q.head = none ∧ l = [] := by
  obtain ⟨hc, _, _, _, hvals⟩ := h
  exact ⟨isChain_nil_iff.1 hc, hvals⟩

theorem uinvc_pop_nil {α : Type} {q : UnboundQueue α} {l : List α}
    (h : UInvC q [] l) : q.popF = (none, q) := by
  rw [UnboundQueue.popF, (uinvc_head_none h).1]

theorem uinvc_popF {α : Type} {q : UnboundQueue α} {j : Nat} {rest : List Nat}
    {l : List α} (h : UInvC q (j :: rest) l) :
    ∃ nd, q.arena[j]? = some nd ∧
      q.popF.1 = some (j, nd.data) ∧
      q.popF.2.arena = q.arena ∧
      UInvC q.popF.2 rest (chainVals q.arena rest) ∧
      l = nd.data :: chainVals q.arena rest := by
  obtain ⟨hc, hnd, hlen, htail, hvals⟩ := h
  cases hh : q.head with
  | none => exact absurd (hh ▸ hc) isChain_none_cons
  | some i =>
    rw [hh] at hc
    obtain ⟨hij, nd, hndj, hrest⟩ := isChain_some_cons.1 hc
    subst hij
    have hpop : q.popF = (some (i, nd.data),
        { arena := q.arena, head := nd.next,
          tail := if nd.next = none then none else q.tail, len := q.len - 1 }) := by
      simp only [UnboundQueue.popF, hh, hndj]
    refine ⟨nd, hndj, by rw [hpop], by rw [hpop], ?_, ?_⟩
    · rw [hpop]
      refine ⟨hrest, (List.nodup_cons.1 hnd).2, ?_, ?_, rfl⟩
      · show q.len - 1 = rest.length
        rw [hlen]
        simp
      · show (if nd.next = none then none else q.tail) = rest.getLast?
        cases hnx : nd.next with
        | none =>
          rw [hnx] at hrest
          cases rest with
          | nil => simp
          | cons r rs => exact absurd hrest isChain_none_cons
        | some k =>
          rw [hnx] at hrest
          cases rest with
          | nil => exact absurd hrest isChain_some_nil
          | cons r rs =>
            simp only [if_neg (Option.some_ne_none k)]
            rw [htail, List.getLast?_cons_cons]
    · rw [hvals, chainVals_cons hndj]

theorem ureachable_uinv {α : Type} {q : UnboundQueue α} (hr : UReachable q) :
    ∃ is l, UInvC q is l := by
  induction hr with
  | new => exact ⟨[], [], uinvc_new α⟩
  | push v _ ih =>
    obtain ⟨is, l, h⟩ := ih
    exact ⟨_, _, uinvc_push h v⟩
  | pop _ ih =>
    obtain ⟨is, l, h⟩ := ih
    cases is with
    | nil =>
      rename_i q2 _
      have hnone := uinvc_pop_nil h
      have hq : q2.pop.2 = q2 := by
        rw [UnboundQueue.pop]
        simp only [hnone]
      rw [hq]
      exact ⟨[], l, h⟩
    | cons j rest =>
      obtain ⟨nd, _, _, _, hinv, _⟩ := uinvc_popF h
      exact ⟨rest, _, hinv⟩

theorem uinv_push {α : Type} {q : UnboundQueue α} {l : List α}
    (h : UInv q l) (v : α) : UInv (q.push v) (l ++ [v]) := by
  obtain ⟨is, h⟩ := h
  exact ⟨_, uinvc_push h v⟩

theorem uinv_nil_head {α : Type} {q : UnboundQueue α}
    (h : UInv q []) : q.head = none := by
  obtain ⟨is, h⟩ := h
  cases is with
  | nil => exact (uinvc_head_none h).1
  | cons j rest =>
    obtain ⟨nd, _, _, _, _, habs⟩ := uinvc_popF h
    exact absurd habs (List.cons_ne_nil _ _).symm

theorem uinv_pop_nil {α : Type} {q : UnboundQueue α}
    (h : UInv q []) : q.pop = (none, q) := by
  have hh := uinv_nil_head h
  rw [UnboundQueue.pop]
  simp [UnboundQueue.popF, hh]

theorem uinv_pop_cons {α : Type} {q : UnboundQueue α} {x : α} {xs : List α}
    (h : UInv q (x :: xs)) :
    q.pop.1 = some x ∧ UInv q.pop.2 xs := by
  obtain ⟨is, h⟩ := h
  cases is with
  | nil =>
    have := (uinvc_head_none h).2
    exact absurd this (List.cons_ne_nil _ _)
  | cons j rest =>
    obtain ⟨nd, hndj, h1, harena, hinv, hl⟩ := uinvc_popF h
    have hx : nd.data = x := (List.cons.injEq _ _ _ _ ▸ hl.symm).1
    have hxs : chainVals q.arena rest = xs := (List.cons.injEq _ _ _ _ ▸ hl.symm).2
    constructor
    · show q.popF.1.map Prod.snd = some x
      rw [h1, hx]
      rfl
    · show UInv q.popF.2 xs
      rw [← hxs]
      exact ⟨rest, hinv⟩

theorem uinv_new (α : Type) : UInv (UnboundQueue.new α) [] :=
  ⟨[], uinvc_new α⟩

theorem uinv_pushAll {α : Type} {q : UnboundQueue α} {l : List α} (vs : List α)
    (h : UInv q l) : UInv (q.pushAll vs) (l ++ vs) := by
  induction vs generalizing q l with
  | nil => simpa [UnboundQueue.pushAll] using h
  | cons v vs ih =>
    have h2 := uinv_push h v
    have h3 := ih h2
    simpa [UnboundQueue.pushAll, List.append_assoc] using h3

theorem uinv_is_empty {α : Type} {q : UnboundQueue α} {l : List α}
    (h : UInv q l) : q.is_empty = l.isEmpty := by
  cases l with
  | nil =>
    rw [UnboundQueue.is_empty, uinv_nil_head h]
    rfl
  | cons x xs =>
    obtain ⟨is, hc⟩ := h
    cases is with
    | nil => exact absurd (uinvc_head_none hc).2 (List.cons_ne_nil _ _)
    | cons j rest =>
      obtain ⟨hchain, _, _, _, _⟩ := hc
      cases hh : q.head with
      | none => exact absurd (hh ▸ hchain) isChain_none_cons
      | some i =>
        rw [UnboundQueue.is_empty, hh]
        rfl

theorem uinv_pops {α : Type} {q : UnboundQueue α} {l : List α}
    (h : UInv q l) :
    (q.pops l.length).1 = l.map some ∧ UInv (q.pops l.length).2 [] := by
  induction l generalizing q with
  | nil => exact ⟨rfl, h⟩
  | cons x xs ih =>
    obtain ⟨h1, h2⟩ := uinv_pop_cons h
    have := ih h2
    rw [List.length_cons, UnboundQueue.pops]
    refine ⟨?_, this.2⟩
    simp only [List.map_cons]
    rw [← h1, ← this.1]

theorem UnboundQueue.pops_concat (q : UnboundQueue α) (m n : Nat) :
    q.pops (m + n) =
      ((q.pops m).1 ++ ((q.pops m).2.pops n).1, ((q.pops m).2.pops n).2) := by
  induction m generalizing q with
  | zero => simp [UnboundQueue.pops]
  | succ k ih =>
    have harith : k + 1 + n = (k + n) + 1 := by omega
    rw [harith, UnboundQueue.pops, UnboundQueue.pops, ih]
    simp

theorem uinv_pops_succ {α : Type} {q : UnboundQueue α} {l : List α}
    (h : UInv q l) :
    (q.pops (l.length + 1)).1 = l.map some ++ [none] := by
  obtain ⟨h1, h2⟩ := uinv_pops h
  rw [UnboundQueue.pops_concat q l.length 1]
  have h3 : ((q.pops l.length).2.pops 1).1 = [none] := by
    rw [UnboundQueue.pops, UnboundQueue.pops]
    simp [uinv_pop_nil h2]
  simp [h1, h3]

theorem runB_sim {α : Type} {q : BoundQueue α} {l : List α} (ops : List (Op α)) {n : Nat}
    (h : BInv q l) (hcap : q.cap = n + 1) (hok : residentOk l ops n = true) :
    (runB q ops).1 = (runL l ops).1 := by
  induction ops generalizing q l with
  | nil => rfl
  | cons op ops ih =>
    cases op with
    | push v =>
      rw [residentOk] at hok
      obtain ⟨h1, h2⟩ := Bool.and_eq_true_iff.1 hok
      have hlt : l.length + 1 ≤ n := of_decide_eq_true h1
      have hlt2 : l.length + 1 < q.cap := by omega
      have hinv2 := binv_push_ok h hlt2 v
      rw [runB, runL]
      exact ih hinv2 (by rw [BoundQueue.push_cap]; exact hcap) h2
    | pop =>
      rw [residentOk] at hok
      cases l with
      | nil =>
        have hp := binv_pop_nil h
        rw [runB, runL]
        simp only [hp, List.tail_nil] at hok ⊢
        rw [ih h hcap hok]
      | cons x xs =>
        obtain ⟨hp, hinv⟩ := binv_pop_cons h
        rw [runB, runL]
        simp only [hp, List.tail_cons] at hok ⊢
        rw [ih hinv (by rw [← hcap]; rfl) hok]
    | isEmpty =>
      rw [residentOk] at hok
      rw [runB, runL]
      simp only [binv_is_empty h]
      rw [ih h hcap hok]

theorem runU_sim {α : Type} {p : UnboundQueue α} {l : List α} (ops : List (Op α))
    (h : UInv p l) :
    (runU p ops).1 = (runL l ops).1 := by
  induction ops generalizing p l with
  | nil => rfl
  | cons op ops ih =>
    cases op with
    | push v =>
      rw [runU, runL]
      exact ih (uinv_push h v)
    | pop =>
      cases l with
      | nil =>
        have hp := uinv_pop_nil h
        rw [runU, runL]
        simp only [hp]
        rw [ih h]
      | cons x xs =>
        obtain ⟨hp1, hinv⟩ := uinv_pop_cons h
        rw [runU, runL]
        simp only [hp1]
        rw [ih hinv]
    | isEmpty =>
      rw [runU, runL]
      simp only [uinv_is_empty h]
      rw [ih h]

theorem adv_mod {p c : Nat} (hp : p < c) :
    (p + 1) % c = if p = c - 1 then 0 else p + 1 := by
  rcases Decidable.em (p = c - 1) with he | he
  · rw [if_pos he]
    have h1 : p + 1 = c := by omega
    rw [h1, Nat.mod_self]
  · rw [if_neg he]
    have h1 : p + 1 < c := by omega
    rw [Nat.mod_eq_of_lt h1]

theorem runBIter_spec {α : Type} :
    ∀ (l : List α) (data : List (Option α)) (hd fuel : Nat),
      hd < data.length → l.length < data.length →
      (∀ i, (hi : i < l.length) → data[(hd + i) % data.length]? = some (some l[i])) →
      l.length ≤ fuel →
      runBIter ⟨hd, (hd + l.length) % data.length, data⟩ fuel
        = (List.range l.length).map (fun i => ((hd + i) % data.length, l[i]?)) := by
  intro l
  induction l with
  | nil =>
    intro data hd fuel hhd _ _ _
    have htl : (hd + ([] : List α).length) % data.length = hd := by
      simp [Nat.mod_eq_of_lt hhd]
    rw [htl]
    cases fuel with
    | zero => rfl
    | succ f =>
      rw [runBIter]
      have hstop : (⟨hd, hd, data⟩ : BIter α).next = (none, ⟨hd, hd, data⟩) := by
        rw [BIter.next]
        simp
      rw [hstop]
      rfl
  | cons x xs ih =>
    intro data hd fuel hhd hlen helems hfuel
    cases fuel with
    | zero =>
      exfalso
      simp only [List.length_cons] at hfuel
      omega
    | succ f =>
      have hcpos : 0 < data.length := Nat.lt_of_le_of_lt (Nat.zero_le _) hhd
      have hlenx : (x :: xs).length < data.length := hlen
      simp only [List.length_cons] at hlenx
      have hne : hd ≠ (hd + (xs.length + 1)) % data.length := by
        intro he
        have h0 : (hd + 0) % data.length = (hd + (xs.length + 1)) % data.length := by
          rw [Nat.add_zero, Nat.mod_eq_of_lt hhd]
          exact he
        have := mod_shift_inj hcpos hlenx h0
        omega
      have hread : data[hd]? = some (some x) := by
        have h0 := helems 0 (Nat.succ_pos _)
        rwa [Nat.add_zero, Nat.mod_eq_of_lt hhd] at h0
      have hnext : (⟨hd, (hd + (xs.length + 1)) % data.length, data⟩ : BIter α).next
          = (some (some x),
             ⟨(hd + 1) % data.length, (hd + (xs.length + 1)) % data.length, data⟩) := by
        rw [BIter.next]
        simp only [if_neg hne]
        rw [hread]
        rcases Decidable.em (hd = data.length - 1) with he | he
        · rw [if_pos he, adv_mod hhd, if_pos he]
          simp
        · rw [if_neg he, adv_mod hhd, if_neg he]
          simp
      show runBIter ⟨hd, (hd + (xs.length + 1)) % data.length, data⟩ (f + 1) = _
      rw [runBIter, hnext]
      show (hd, some x) :: runBIter ⟨(hd + 1) % data.length, (hd + (xs.length + 1)) % data.length, data⟩ f = _
      have htail2 : (hd + (xs.length + 1)) % data.length
          = ((hd + 1) % data.length + xs.length) % data.length := by
        rw [Nat.mod_add_mod]
        congr 1
        omega
      have helems2 : ∀ i, (hi : i < xs.length) →
          data[((hd + 1) % data.length + i) % data.length]? = some (some xs[i]) := by
        intro i hi
        have hstep : ((hd + 1) % data.length + i) % data.length
            = (hd + (i + 1)) % data.length := by
          rw [Nat.mod_add_mod]
          congr 1
          omega
        rw [hstep]
        have := helems (i + 1) (by simpa using hi)
        rw [this]
        simp
      have hxslen : xs.length < data.length := by omega
      have hfuel2 : xs.length ≤ f := by
        simp only [List.length_cons] at hfuel
        omega
      rw [htail2, ih data ((hd + 1) % data.length) f (Nat.mod_lt _ hcpos) hxslen helems2 hfuel2]
      rw [List.length_cons, List.range_succ_eq_map, List.map_cons, List.map_map]
      congr 1
      · simp [Nat.mod_eq_of_lt hhd]
      · apply List.map_congr_left
        intro i hi
        have hilt : i < xs.length := List.mem_range.1 hi
        have hstep : ((hd + 1) % data.length + i) % data.length
            = (hd + (i + 1)) % data.length := by
          rw [Nat.mod_add_mod]
          congr 1
          omega
        rw [hstep]
        simp

theorem runUIter_spec {α : Type} {arena : List (Node α)} :
    ∀ {o : Option Nat} {is : List Nat} (fuel : Nat), isChain arena o is →
      is.length ≤ fuel →
      runUIter ⟨o, arena⟩ fuel = is.zip (chainVals arena is) := by
  intro o is
  induction is generalizing o with
  | nil =>
    intro fuel hc _
    have ho := isChain_nil_iff.1 hc
    subst ho
    cases fuel with
    | zero => rfl
    | succ f => rfl
  | cons j rest ih =>
    intro fuel hc hfuel
    cases o with
    | none => exact absurd hc isChain_none_cons
    | some i =>
      obtain ⟨hij, nd, hndj, hrest⟩ := isChain_some_cons.1 hc
      subst hij
      cases fuel with
      | zero =>
        exfalso
        simp only [List.length_cons] at hfuel
        omega
      | succ f =>
        rw [runUIter]
        have hnext : (⟨some i, arena⟩ : UIter α).next = (some nd.data, ⟨nd.next, arena⟩) := by
          simp only [UIter.next, hndj]
        rw [hnext]
        show (i, nd.data) :: runUIter ⟨nd.next, arena⟩ f = _
        have hfuel2 : rest.length ≤ f := by
          simp only [List.length_cons] at hfuel
          omega
        rw [ih f hrest hfuel2, chainVals_cons hndj]
        rfl

theorem drain_spec {α : Type} :
    ∀ {is : List Nat} {q : UnboundQueue α} {l : List α}, UInvC q is l →
      (q.drain is.length).1 = is.zip l ∧ (q.drain is.length).2.head = none := by
  intro is
  induction is with
  | nil =>
    intro q l h
    exact ⟨rfl, (uinvc_head_none h).1⟩
  | cons j rest ih =>
    intro q l h
    obtain ⟨nd, hndj, h1, harena, hinv, hl⟩ := uinvc_popF h
    rw [List.length_cons, UnboundQueue.drain]
    have hpf : q.popF = (some (j, nd.data), q.popF.2) := by
      rw [← h1]
    rw [hpf]
    obtain ⟨ih1, ih2⟩ := ih hinv
    constructor
    · show (j, nd.data) :: (q.popF.2.drain rest.length).1 = (j :: rest).zip l
      rw [ih1, hl]
      rfl
    · show (q.popF.2.drain rest.length).2.head = none
      exact ih2

theorem range_map_getElem? {α : Type} (l : List α) :
    (List.range l.length).map (fun i => l[i]?) = l.map some := by
  apply List.ext_getElem
  · simp
  · intro i h1 h2
    simp only [List.getElem_map, List.getElem_range, List.length_map, List.length_range] at h1 h2 ⊢
    exact List.getElem?_eq_getElem h1

theorem chainVals_length {α : Type} {arena : List (Node α)} :
    ∀ {o : Option Nat} {is : List Nat}, isChain arena o is →
      (chainVals arena is).length = is.length := by
  intro o is
  induction is generalizing o with
  | nil => intro _; rfl
  | cons j rest ih =>
    intro hc
    cases o with
    | none => exact absurd hc isChain_none_cons
    | some i =>
      obtain ⟨hij, nd, hndj, hrest⟩ := isChain_some_cons.1 hc
      subst hij
      rw [chainVals_cons hndj, List.length_cons, List.length_cons, ih hrest]

theorem uinvc_toList {α : Type} {q : UnboundQueue α} {is : List Nat} {l : List α}
    (h : UInvC q is l) : q.toList = l := by
  obtain ⟨hc, hnd, hlen, htail, hvals⟩ := h
  rw [UnboundQueue.toList]
  have hiter : q.iter = ⟨q.head, q.arena⟩ := rfl
  rw [hiter, hlen, runUIter_spec is.length hc (Nat.le_refl _)]
  rw [List.map_snd_zip _ _ (Nat.le_of_eq (chainVals_length hc))]
  exact hvals.symm

theorem uinvc_len {α : Type} {q : UnboundQueue α} {is : List Nat} {l : List α}
    (h : UInvC q is l) : q.len = l.length := by
  obtain ⟨hc, _, hlen, _, hvals⟩ := h
  rw [hlen, hvals, chainVals_length hc]

/-! ## Claim theorems -/

/-- C1: FIFO order — for every element type, pushing `v1..vn` in order onto
a fresh `BoundQueue::new(c)` with `c ≥ n`, or onto a fresh
`UnboundQueue::new()`, and then popping `n` times returns
`Some v1, ..., Some vn` in that order, and an `(n+1)`-th pop returns
`none`. -/
theorem C1_fifo {α : Type} (c : Nat) (vs : List α) (hle : vs.length ≤ c) :
    (((BoundQueue.new α c).pushAll vs).pops (vs.length + 1)).1
      = vs.map some ++ [none] ∧
    (((UnboundQueue.new α).pushAll vs).pops (vs.length + 1)).1
      = vs.map some ++ [none] := by
  constructor
  · have hcap : (BoundQueue.new α c).cap = c + 1 := by
      simp [BoundQueue.new, BoundQueue.cap]
    have hinv := binv_pushAll vs (binv_new α c)
      (by rw [hcap]; simpa using Nat.lt_succ_of_le hle)
    rw [List.nil_append] at hinv
    exact binv_pops_succ hinv
  · have hinv := uinv_pushAll vs (uinv_new α)
    rw [List.nil_append] at hinv
    exact uinv_pops_succ hinv

theorem C1_fifo_witness :
    (((BoundQueue.new Nat 3).pushAll [1, 2, 3]).pops 4).1
      = [some 1, some 2, some 3, none] ∧
    (((UnboundQueue.new Nat).pushAll [1, 2, 3]).pops 4).1
      = [some 1, some 2, some 3, none] :=
  C1_fifo 3 [1, 2, 3] (by decide)

/-- C2: the claim states `is_full()` is true iff `(tail + 1) mod cap ==
head` (the condition under which `push` discards).  The code compares
`tail + 1 == head` without the modulus, so on `BoundQueue::new(1)` after
one push (`tail = 1`, `head = 0`, `cap = 2`) the queue is full in the
sense used by `push` — the next push discards its item — yet `is_full()`
returns `false`. -/
theorem C2_is_full_defect :
    ((BoundQueue.new Nat 1).push 42).is_full = false ∧
    (((BoundQueue.new Nat 1).push 42).tail + 1) % ((BoundQueue.new Nat 1).push 42).cap
      = ((BoundQueue.new Nat 1).push 42).head ∧
    ((BoundQueue.new Nat 1).push 42).push 7 = (BoundQueue.new Nat 1).push 42 := by
  decide

/-- C3: on every reachable `BoundQueue` state that is full in the sense
used by `push` (`(tail + 1) mod cap = head`), `push` is a silent no-op:
the resulting state — head, tail and every stored slot — is exactly the
old one. -/
theorem C3_push_full_noop {α : Type} {q : BoundQueue α} (hr : BReachable q)
    (hfull : (q.tail + 1) % q.cap = q.head) (v : α) : q.push v = q := by
  obtain ⟨l, h⟩ := breachable_binv hr
  have hmod : (q.head + l.length + 1) % q.cap = q.head := by
    rw [← Nat.mod_add_mod, ← h.tail_eq]
    exact hfull
  exact binv_push_full h ((full_iff h.head_lt h.len_lt).1 hmod) v

theorem C3_push_full_noop_witness :
    (((BoundQueue.new Nat 1).push 42).tail + 1) % ((BoundQueue.new Nat 1).push 42).cap
      = ((BoundQueue.new Nat 1).push 42).head ∧
    ((BoundQueue.new Nat 1).push 42).push 7 = (BoundQueue.new Nat 1).push 42 :=
  ⟨by decide, C3_push_full_noop (BReachable.push 42 (BReachable.new 1)) (by decide) 7⟩

theorem BoundQueue.pushAll_cap (q : BoundQueue α) (vs : List α) :
    (q.pushAll vs).cap = q.cap := by
  induction vs generalizing q with
  | nil => rfl
  | cons v vs ih =>
    show ((q.push v).pushAll vs).cap = q.cap
    rw [ih, BoundQueue.push_cap]

/-- C4: capacity boundary — `BoundQueue::new(n)` starts with
`head = tail = 0` and exactly `n + 1` raw slots; `n` pushes onto the fresh
queue each store their item (after `k ≤ n` pushes exactly the first `k`
items are resident, in order), after which the occupancy is `n`; one more
push is a silent no-op and the occupancy stays `n`. -/
theorem C4_capacity_boundary {α : Type} (n : Nat) (_hn : 1 ≤ n) (vs : List α)
    (hvs : vs.length = n) (w : α) :
    (BoundQueue.new α n).head = 0 ∧
    (BoundQueue.new α n).tail = 0 ∧
    (BoundQueue.new α n).data.length = n + 1 ∧
    (∀ k, k ≤ n →
      ((BoundQueue.new α n).pushAll (vs.take k)).toList = (vs.take k).map some) ∧
    ((BoundQueue.new α n).pushAll vs).size = n ∧
    ((BoundQueue.new α n).pushAll vs).push w = (BoundQueue.new α n).pushAll vs ∧
    (((BoundQueue.new α n).pushAll vs).push w).size = n := by
  have hcap : (BoundQueue.new α n).cap = n + 1 := by
    simp [BoundQueue.new, BoundQueue.cap]
  have hinv : BInv ((BoundQueue.new α n).pushAll vs) vs := by
    have := binv_pushAll vs (binv_new α n) (by rw [hcap]; simp [hvs])
    rwa [List.nil_append] at this
  have hc2 : ((BoundQueue.new α n).pushAll vs).cap = n + 1 := by
    rw [BoundQueue.pushAll_cap, hcap]
  have hfull : ((BoundQueue.new α n).pushAll vs).push w = (BoundQueue.new α n).pushAll vs :=
    binv_push_full hinv (by rw [hvs, hc2]) w
  refine ⟨rfl, rfl, by simp [BoundQueue.new], ?_, ?_, hfull, ?_⟩
  · intro k hk
    have hinvk : BInv ((BoundQueue.new α n).pushAll (vs.take k)) (vs.take k) := by
      have hlt : ([] : List α).length + (vs.take k).length < (BoundQueue.new α n).cap := by
        rw [hcap]
        have : (vs.take k).length ≤ n := by
          rw [← hvs]
          simp
        simp only [List.length_nil]
        omega
      have := binv_pushAll (vs.take k) (binv_new α n) hlt
      rwa [List.nil_append] at this
    exact binv_toList hinvk
  · rw [binv_size hinv, hvs]
  · rw [hfull, binv_size hinv, hvs]

theorem C4_capacity_boundary_witness :
    (BoundQueue.new Nat 2).head = 0 ∧
    (BoundQueue.new Nat 2).tail = 0 ∧
    (BoundQueue.new Nat 2).data.length = 2 + 1 ∧
    (∀ k, k ≤ 2 →
      ((BoundQueue.new Nat 2).pushAll (([10, 20] : List Nat).take k)).toList
        = (([10, 20] : List Nat).take k).map some) ∧
    ((BoundQueue.new Nat 2).pushAll [10, 20]).size = 2 ∧
    ((BoundQueue.new Nat 2).pushAll [10, 20]).push 30
      = (BoundQueue.new Nat 2).pushAll [10, 20] ∧
    (((BoundQueue.new Nat 2).pushAll [10, 20]).push 30).size = 2 :=
  C4_capacity_boundary 2 (by decide) [10, 20] (by decide) 30

/-- C9: implicit index invariant — in every reachable `BoundQueue` state
`head < cap`, `tail < cap`, and the occupancy `(tail - head) mod cap`
(written `(tail + cap - head) % cap` over `Nat`) is at most `cap - 1`, so
the one reserved slot is never occupied. -/
theorem C9_index_invariant {α : Type} {q : BoundQueue α} (hr : BReachable q) :
    q.head < q.cap ∧ q.tail < q.cap ∧
    (q.tail + q.cap - q.head) % q.cap ≤ q.cap - 1 := by
  obtain ⟨l, h⟩ := breachable_binv hr
  refine ⟨h.head_lt, h.tail_lt, ?_⟩
  have h1 : (q.tail + q.cap - q.head) % q.cap < q.cap := Nat.mod_lt _ h.cap_pos
  omega

theorem C9_index_invariant_witness :
    ((BoundQueue.new Nat 2).push 5).head < ((BoundQueue.new Nat 2).push 5).cap ∧
    ((BoundQueue.new Nat 2).push 5).tail < ((BoundQueue.new Nat 2).push 5).cap ∧
    (((BoundQueue.new Nat 2).push 5).tail + ((BoundQueue.new Nat 2).push 5).cap
        - ((BoundQueue.new Nat 2).push 5).head) % ((BoundQueue.new Nat 2).push 5).cap
      ≤ ((BoundQueue.new Nat 2).push 5).cap - 1 :=
  C9_index_invariant (BReachable.push 5 (BReachable.new 2))

/-- C10: zero-capacity edge case — `BoundQueue::new(0)` has exactly one
raw slot; under every subsequent sequence of trait calls the state stays
`new(0)` (every push is silently discarded), every pop observation is
`none`, and every `is_empty` observation is `true`. -/
theorem C10_zero_capacity {α : Type} (ops : List (Op α)) :
    (BoundQueue.new α 0).cap = 1 ∧
    (runB (BoundQueue.new α 0) ops).2 = BoundQueue.new α 0 ∧
    ∀ o ∈ (runB (BoundQueue.new α 0) ops).1,
      o = Obs.popped none ∨ o = Obs.empty true := by
  have hpush : ∀ v : α, (BoundQueue.new α 0).push v = BoundQueue.new α 0 := fun v => rfl
  have hpop : (BoundQueue.new α 0).pop = (none, BoundQueue.new α 0) := rfl
  have hempty : (BoundQueue.new α 0).is_empty = true := rfl
  refine ⟨rfl, ?_, ?_⟩
  · induction ops with
    | nil => rfl
    | cons op ops ih =>
      cases op with
      | push v => rw [runB, hpush v]; exact ih
      | pop => rw [runB]; simp only [hpop]; exact ih
      | isEmpty => rw [runB]; exact ih
  · induction ops with
    | nil => intro o ho; simp [runB] at ho
    | cons op ops ih =>
      intro o ho
      cases op with
      | push v =>
        rw [runB, hpush v] at ho
        exact ih o ho
      | pop =>
        rw [runB] at ho
        simp only [hpop] at ho
        rcases List.mem_cons.1 ho with h1 | h1
        · exact Or.inl h1
        · exact ih o h1
      | isEmpty =>
        rw [runB] at ho
        simp only [hempty] at ho
        rcases List.mem_cons.1 ho with h1 | h1
        · exact Or.inr h1
        · exact ih o h1

/-- C5: structural invariant of `UnboundQueue` — in every reachable state,
`head` is `none` iff `tail` is `none` iff `len = 0`, and the chain of
forward links starting at `head` visits exactly `len` nodes, ending at the
node `tail` points to (so `len` is always the number of nodes).  Because
every reachable state satisfies it, every push and pop preserves it. -/
theorem C5_unbound_invariant {α : Type} {q : UnboundQueue α} (hr : UReachable q) :
    (q.head = none ↔ q.tail = none) ∧
    (q.head = none ↔ q.len = 0) ∧
    ∃ is : List Nat, isChain q.arena q.head is ∧ is.length = q.len ∧
      q.tail = is.getLast? := by
  obtain ⟨is, l, h⟩ := ureachable_uinv hr
  obtain ⟨hc, hnd, hlen, htail, hvals⟩ := h
  have hnil : q.head = none ↔ is = [] := by
    constructor
    · intro hh
      cases is with
      | nil => rfl
      | cons j rest => exact absurd (hh ▸ hc) isChain_none_cons
    · intro hh
      subst hh
      exact isChain_nil_iff.1 hc
  refine ⟨?_, ?_, is, hc, hlen.symm, htail⟩
  · rw [hnil, htail]
    exact ⟨fun hh => by simp [hh], fun hh => List.getLast?_eq_none_iff.1 hh⟩
  · rw [hnil, hlen]
    exact ⟨fun hh => by simp [hh], fun hh => List.length_eq_zero.1 hh⟩

theorem C5_unbound_invariant_witness :
    ((((UnboundQueue.new Nat).push 1).push 2).head = none ↔
      (((UnboundQueue.new Nat).push 1).push 2).tail = none) ∧
    ((((UnboundQueue.new Nat).push 1).push 2).head = none ↔
      (((UnboundQueue.new Nat).push 1).push 2).len = 0) ∧
    ∃ is : List Nat,
      isChain (((UnboundQueue.new Nat).push 1).push 2).arena
        (((UnboundQueue.new Nat).push 1).push 2).head is ∧
      is.length = (((UnboundQueue.new Nat).push 1).push 2).len ∧
      (((UnboundQueue.new Nat).push 1).push 2).tail = is.getLast? :=
  C5_unbound_invariant (UReachable.push 2 (UReachable.push 1 UReachable.new))

/-- C7: engine interchangeability — for every capacity `n` and every
sequence of `push` / `pop` / `is_empty` calls during which the resident
count never exceeds `n`, running the sequence on `BoundQueue::new(n)` and
on `UnboundQueue::new()` produces identical observations: the same
`Option` for every pop and the same boolean for every `is_empty`. -/
theorem C7_interchangeable {α : Type} (n : Nat) (ops : List (Op α))
    (hok : residentOk [] ops n = true) :
    (runB (BoundQueue.new α n) ops).1 = (runU (UnboundQueue.new α) ops).1 := by
  rw [runB_sim ops (binv_new α n) (by simp [BoundQueue.new, BoundQueue.cap]) hok]
  rw [runU_sim ops (uinv_new α)]

theorem C7_interchangeable_witness :
    (runB (BoundQueue.new Nat 2)
        [Op.push 1, Op.isEmpty, Op.push 2, Op.pop, Op.push 3, Op.pop, Op.pop, Op.pop]).1
      = (runU (UnboundQueue.new Nat)
        [Op.push 1, Op.isEmpty, Op.push 2, Op.pop, Op.push 3, Op.pop, Op.pop, Op.pop]).1 :=
  C7_interchangeable 2
    [Op.push 1, Op.isEmpty, Op.push 2, Op.pop, Op.push 3, Op.pop, Op.pop, Op.pop]
    (by decide)

theorem binv_runBIter {α : Type} {q : BoundQueue α} {l : List α}
    (h : BInv q l) (fuel : Nat) (hfuel : l.length ≤ fuel) :
    runBIter q.iter fuel
      = (List.range l.length).map (fun i => ((q.head + i) % q.cap, l[i]?)) := by
  have hiter : q.iter = ⟨q.head, (q.head + l.length) % q.data.length, q.data⟩ := by
    rw [BoundQueue.iter]
    congr 1
    exact h.tail_eq
  rw [hiter]
  exact runBIter_spec l q.data q.head fuel h.head_lt h.len_lt h.elems hfuel

theorem binv_positions_nodup {α : Type} {q : BoundQueue α} {l : List α}
    (h : BInv q l) :
    ((List.range l.length).map (fun i => (q.head + i) % q.cap)).Nodup := by
  apply List.Nodup.map_on _ (List.nodup_range _)
  intro i hi j hj he
  exact mod_shift_inj (Nat.lt_trans (List.mem_range.1 hi) h.len_lt)
    (Nat.lt_trans (List.mem_range.1 hj) h.len_lt) he

theorem binv_tail_not_visited {α : Type} {q : BoundQueue α} {l : List α}
    (h : BInv q l) :
    q.tail ∉ (List.range l.length).map (fun i => (q.head + i) % q.cap) := by
  intro hmem
  obtain ⟨i, hi, he⟩ := List.mem_map.1 hmem
  have hilt := List.mem_range.1 hi
  rw [h.tail_eq] at he
  have := mod_shift_inj (Nat.lt_trans hilt h.len_lt) h.len_lt he
  omega

/-- C6: iterator contract — on every pair of reachable states, `iter()`
(whose walk `iter_mut()` and the drop loop share) yields the resident
elements oldest-first and then stops: for any fuel at least the occupancy,
the bounded iterator yields exactly `toList`, dereferences exactly the
slots `(head + i) % cap` for `i < size` in that order — with the `pop`
wraparound rule, never touching the `tail` gap slot — and the unbounded
iterator yields exactly the chain values; `into_iter()` (repeated `pop`)
yields the same sequence and drains the queue to empty.  The borrowing
iterator is a pure function of the state, so the queue is unchanged. -/
theorem C6_iter_contract {α : Type} {q : BoundQueue α} {p : UnboundQueue α}
    (hq : BReachable q) (hp : UReachable p) :
    (∀ fuel, q.size ≤ fuel →
      (runBIter q.iter fuel).map Prod.snd = q.toList ∧
      (runBIter q.iter fuel).map Prod.fst
        = (List.range q.size).map (fun i => (q.head + i) % q.cap) ∧
      q.tail ∉ (runBIter q.iter fuel).map Prod.fst) ∧
    ((q.pops q.size).1 = q.toList ∧ (q.pops q.size).2.is_empty = true) ∧
    (∀ fuel, p.len ≤ fuel → (runUIter p.iter fuel).map Prod.snd = p.toList) ∧
    ((p.pops p.len).1 = p.toList.map some ∧ (p.pops p.len).2.is_empty = true) := by
  obtain ⟨l, h⟩ := breachable_binv hq
  obtain ⟨is, lu, hcu⟩ := ureachable_uinv hp
  have hsz : q.size = l.length := binv_size h
  have htl : q.toList = l.map some := binv_toList h
  have hpl : p.len = lu.length := uinvc_len hcu
  have hptl : p.toList = lu := uinvc_toList hcu
  refine ⟨?_, ?_, ?_, ?_⟩
  · intro fuel hfuel
    rw [hsz] at hfuel
    rw [binv_runBIter h fuel hfuel, hsz, htl, List.map_map, List.map_map]
    refine ⟨?_, rfl, ?_⟩
    · show (List.range l.length).map (fun i => l[i]?) = l.map some
      exact range_map_getElem? l
    · show q.tail ∉ (List.range l.length).map (fun i => (q.head + i) % q.cap)
      exact binv_tail_not_visited h
  · obtain ⟨h1, h2⟩ := binv_pops h
    rw [hsz, htl]
    exact ⟨h1, by rw [binv_is_empty h2]; rfl⟩
  · intro fuel hfuel
    obtain ⟨hc, hnd, hlen, htail, hvals⟩ := hcu
    have hfuel2 : is.length ≤ fuel := by
      rw [← hlen]
      exact hfuel
    have hiter : p.iter = ⟨p.head, p.arena⟩ := rfl
    rw [hiter, runUIter_spec fuel hc hfuel2,
      List.map_snd_zip _ _ (Nat.le_of_eq (chainVals_length hc)), hptl]
    exact hvals.symm
  · have h1 := uinv_pops ⟨is, hcu⟩
    rw [hpl, hptl]
    exact ⟨h1.1, by rw [uinv_is_empty h1.2]; rfl⟩

theorem C6_iter_contract_witness :
    (∀ fuel, (((BoundQueue.new Nat 2).push 1).push 2).size ≤ fuel →
      (runBIter (((BoundQueue.new Nat 2).push 1).push 2).iter fuel).map Prod.snd
        = (((BoundQueue.new Nat 2).push 1).push 2).toList ∧
      (runBIter (((BoundQueue.new Nat 2).push 1).push 2).iter fuel).map Prod.fst
        = (List.range (((BoundQueue.new Nat 2).push 1).push 2).size).map
            (fun i => ((((BoundQueue.new Nat 2).push 1).push 2).head + i)
              % (((BoundQueue.new Nat 2).push 1).push 2).cap) ∧
      (((BoundQueue.new Nat 2).push 1).push 2).tail
        ∉ (runBIter (((BoundQueue.new Nat 2).push 1).push 2).iter fuel).map Prod.fst) ∧
    (((((BoundQueue.new Nat 2).push 1).push 2).pops
          (((BoundQueue.new Nat 2).push 1).push 2).size).1
        = (((BoundQueue.new Nat 2).push 1).push 2).toList ∧
      ((((BoundQueue.new Nat 2).push 1).push 2).pops
          (((BoundQueue.new Nat 2).push 1).push 2).size).2.is_empty = true) ∧
    (∀ fuel, (((UnboundQueue.new Nat).push 1).push 2).len ≤ fuel →
      (runUIter (((UnboundQueue.new Nat).push 1).push 2).iter fuel).map Prod.snd
        = (((UnboundQueue.new Nat).push 1).push 2).toList) ∧
    (((((UnboundQueue.new Nat).push 1).push 2).pops
          (((UnboundQueue.new Nat).push 1).push 2).len).1
        = (((UnboundQueue.new Nat).push 1).push 2).toList.map some ∧
      ((((UnboundQueue.new Nat).push 1).push 2).pops
          (((UnboundQueue.new Nat).push 1).push 2).len).2.is_empty = true) :=
  C6_iter_contract
    (BReachable.push 2 (BReachable.push 1 (BReachable.new 2)))
    (UReachable.push 2 (UReachable.push 1 UReachable.new))

/-- C8: exact destruction — on every pair of reachable states, dropping
the queue destructs exactly the resident elements, each exactly once, and
nothing else.  For `BoundQueue`, the drop loop reads exactly the
values `toList` from exactly the occupied slots `(head + i) % cap`,
`i < size` (the circular range `[head, tail)`), a duplicate-free slot
list, so no slot outside the occupied range is destructed.  For
`UnboundQueue`, the drop loop (`pop_node` until empty) frees exactly the
nodes of the head-to-tail chain, a duplicate-free node list, paired with
exactly the resident values `toList`, and ends with `head = none`. -/
theorem C8_drop_exact {α : Type} {q : BoundQueue α} {p : UnboundQueue α}
    (hq : BReachable q) (hp : UReachable p) :
    (q.dropDestructs.map Prod.snd = q.toList ∧
     q.dropDestructs.map Prod.fst
       = (List.range q.size).map (fun i => (q.head + i) % q.cap) ∧
     (q.dropDestructs.map Prod.fst).Nodup) ∧
    (∃ is : List Nat, isChain p.arena p.head is ∧ is.Nodup ∧
      (p.drain p.len).1 = is.zip p.toList ∧ (p.drain p.len).2.head = none) := by
  obtain ⟨l, h⟩ := breachable_binv hq
  obtain ⟨is, lu, hcu⟩ := ureachable_uinv hp
  have hsz : q.size = l.length := binv_size h
  have htl : q.toList = l.map some := binv_toList h
  constructor
  · have hrun := binv_runBIter h q.cap (Nat.le_of_lt h.len_lt)
    rw [BoundQueue.dropDestructs, hrun, hsz, htl, List.map_map, List.map_map]
    refine ⟨range_map_getElem? l, rfl, ?_⟩
    show ((List.range l.length).map (fun i => (q.head + i) % q.cap)).Nodup
    exact binv_positions_nodup h
  · obtain ⟨hd1, hd2⟩ := drain_spec hcu
    have hlen : p.len = is.length := hcu.2.2.1
    have hptl : p.toList = lu := uinvc_toList hcu
    refine ⟨is, hcu.1, hcu.2.1, ?_, ?_⟩
    · rw [hlen, hptl, hd1, hcu.2.2.2.2]
    · rw [hlen]
      exact hd2

theorem C8_drop_exact_witness :
    ((((BoundQueue.new Nat 2).push 1).push 2).dropDestructs.map Prod.snd
        = (((BoundQueue.new Nat 2).push 1).push 2).toList ∧
     (((BoundQueue.new Nat 2).push 1).push 2).dropDestructs.map Prod.fst
        = (List.range (((BoundQueue.new Nat 2).push 1).push 2).size).map
            (fun i => ((((BoundQueue.new Nat 2).push 1).push 2).head + i)
              % (((BoundQueue.new Nat 2).push 1).push 2).cap) ∧
     ((((BoundQueue.new Nat 2).push 1).push 2).dropDestructs.map Prod.fst).Nodup) ∧
    (∃ is : List Nat,
      isChain (((UnboundQueue.new Nat).push 1).push 2).arena
        (((UnboundQueue.new Nat).push 1).push 2).head is ∧ is.Nodup ∧
      ((((UnboundQueue.new Nat).push 1).push 2).drain
          (((UnboundQueue.new Nat).push 1).push 2).len).1
        = is.zip (((UnboundQueue.new Nat).push 1).push 2).toList ∧
      ((((UnboundQueue.new Nat).push 1).push 2).drain
          (((UnboundQueue.new Nat).push 1).push 2).len).2.head = none) :=
  C8_drop_exact
    (BReachable.push 2 (BReachable.push 1 (BReachable.new 2)))
    (UReachable.push 2 (UReachable.push 1 UReachable.new))
